import Mathlib

/-!
Shallow embedding of the lab02 attention notebook
(`src/lab02/text-02-attention.ipynb`): scaled dot-product attention with a
learnable relative positional bias, attention head, encoder block, stacked
transformer regression model, sinusoidal positional encoding, and the
synthetic jump time-series dataset.

A tensor of shape `(batch, seq, d)` is embedded as a function
`Fin batch → Fin seq → Fin d → ℝ`; shapes are tracked by the types.
Floating-point arithmetic is modelled by exact real arithmetic.
-/

open Finset

noncomputable section

/-- A batched tensor of shape `(b, n, d)`. -/
abbrev Tens (b n d : ℕ) : Type := Fin b → Fin n → Fin d → ℝ

/-- An attention-weight tensor of shape `(b, n, n)`. -/
abbrev AttnW (b n : ℕ) : Type := Fin b → Fin n → Fin n → ℝ

/-- `torch.softmax(s, dim=-1)` applied to one row `s`. -/
def softmax {n : ℕ} (s : Fin n → ℝ) : Fin n → ℝ :=
  fun j => Real.exp (s j) / ∑ t, Real.exp (s t)

/-- The raw score matrix of `ScaledDotProductAttention.forward`:
`torch.matmul(query, key.transpose(-2, -1)) / torch.sqrt(torch.tensor(self.d_k))`.
`dkParam` is the stored constructor argument `self.d_k`. -/
def rawScores {b n dk : ℕ} (dkParam : ℕ) (q k : Tens b n dk) : AttnW b n :=
  fun B i j => (∑ t, q B i t * k B j t) / Real.sqrt dkParam

/-- `ScaledDotProductAttention.forward(query, key, value)` from the source:
scaled dot-product scores, then (only when
`other_positional_encodings_present` is false) addition of the relative
positional bias `rel_layer` (shape `(1, seq_len, seq_len)`, broadcast over
the batch axis), then softmax along the last axis, then the weighted sum of
`value`.  Returns the pair `(output, attention_weights)`. -/
def sdpaForward {b n dk dv : ℕ} (dkParam : ℕ) (otherPE : Bool)
    (rel : Fin n → Fin n → ℝ) (q k : Tens b n dk) (v : Tens b n dv) :
    Tens b n dv × AttnW b n :=
  let scores := rawScores dkParam q k
  let scores2 : AttnW b n :=
    if otherPE then scores else fun B i j => scores B i j + rel i j
  let w : AttnW b n := fun B i => softmax (scores2 B i)
  (fun B i t => ∑ j, w B i j * v B j t, w)

/-- Written from the spec's words (claim C1): the attention weight matrix
`softmax(Q.K^T / sqrt(d_k))`, softmax along the last axis, where the divisor
is the square root of the query/key feature dimension. -/
def attnSpecW {b n dk : ℕ} (q k : Tens b n dk) : AttnW b n :=
  fun B i => softmax (fun j => (∑ t, q B i t * k B j t) / Real.sqrt dk)

/-- Written from the spec's words (claim C1): the attention output
`softmax(Q.K^T / sqrt(d_k)) . V`. -/
def attnSpecOut {b n dk dv : ℕ} (q k : Tens b n dk) (v : Tens b n dv) :
    Tens b n dv :=
  fun B i t => ∑ j, attnSpecW q k B i j * v B j t

/-- Each softmax row sums to 1 (the index `i` witnesses that the row is
nonempty). -/
theorem softmax_sum_eq_one {n : ℕ} (s : Fin n → ℝ) (i : Fin n) :
    ∑ j, softmax s j = 1 := by
  have hne : (univ : Finset (Fin n)).Nonempty := ⟨i, mem_univ i⟩
  have hpos : 0 < ∑ t, Real.exp (s t) :=
    Finset.sum_pos (fun t _ => Real.exp_pos (s t)) hne
  unfold softmax
  rw [← Finset.sum_div, div_self (ne_of_gt hpos)]

/-- C1: with no relative positional bias active
(`other_positional_encodings_present = true`), `ScaledDotProductAttention.forward`
on query/key of shape `(b, n, dk)` and value of shape `(b, n, dv)` returns
exactly the pair `(softmax(Q.K^T / sqrt(d_k)) . V, softmax(Q.K^T / sqrt(d_k)))`,
the divisor being the square root of the query/key feature dimension `dk` and
softmax taken along the last axis; the output has shape `(b, n, dv)` and the
weight matrix shape `(b, n, n)` (so `(2,10,16)`-shaped inputs give output shape
`(2,10,16)` and weight shape `(2,10,10)`), and both tensors are returned. -/
theorem C1_sdpa_matches_spec_formula {b n dk dv : ℕ}
    (rel : Fin n → Fin n → ℝ) (q k : Tens b n dk) (v : Tens b n dv) :
    sdpaForward dk true rel q k v = (attnSpecOut q k v, attnSpecW q k) := by
  unfold sdpaForward attnSpecOut attnSpecW rawScores
  simp

/-- Parameters of one `nn.Linear(i, o)` layer: weight of shape `(o, i)` and
bias of shape `(o)`. -/
structure LinearParams (o i : ℕ) where
  w : Fin o → Fin i → ℝ
  c : Fin o → ℝ

/-- `nn.Linear` application to the last axis: `y = x Aᵀ + b`. -/
def linearApply {o i : ℕ} (p : LinearParams o i) (x : Fin i → ℝ) : Fin o → ℝ :=
  fun j => (∑ t, p.w j t * x t) + p.c j

/-- Parameters of the `AttentionHead` module (for sequence length `n` and
width `d`): the three input projections, the output projection, and the
`rel_layer` tensor of the `ScaledDotProductAttention` submodule it
constructs with `d_k = d_model`. -/
structure HeadParams (n d : ℕ) where
  query_layer : LinearParams d d
  key_layer : LinearParams d d
  value_layer : LinearParams d d
  fc_out : LinearParams d d
  rel_layer : Fin n → Fin n → ℝ

/-- Modelled from the spec: the body of `AttentionHead.forward` is a TODO
stub in the source; per spec 4.2 it applies the three input projections,
invokes the attention unit (constructed with `d_k = d_model` and the
given flag), and applies the output projection to the unit's output,
returning `(projected_output, attention_weights)`. -/
def headForward {b n d : ℕ} (otherPE : Bool) (p : HeadParams n d)
    (q k v : Tens b n d) : Tens b n d × AttnW b n :=
  let Q : Tens b n d := fun B i => linearApply p.query_layer (q B i)
  let K : Tens b n d := fun B i => linearApply p.key_layer (k B i)
  let V : Tens b n d := fun B i => linearApply p.value_layer (v B i)
  let r := sdpaForward d otherPE p.rel_layer Q K V
  (fun B i => linearApply p.fc_out (r.1 B i), r.2)

/-- The scaled score matrix the head feeds to its attention unit (before any
relative bias): projections of the block input followed by `rawScores`. -/
def headScores {b n d : ℕ} (p : HeadParams n d) (q k : Tens b n d) :
    AttnW b n :=
  rawScores d (fun B i => linearApply p.query_layer (q B i))
    (fun B i => linearApply p.key_layer (k B i))

/-- `nn.LayerNorm(d)` parameters (elementwise affine weight and bias). -/
structure LayerNormParams (d : ℕ) where
  gamma : Fin d → ℝ
  beta : Fin d → ℝ

/-- The `eps` default of `nn.LayerNorm`. -/
def lnEps : ℝ := 1e-5

/-- `nn.LayerNorm` over the last axis: normalize by mean and (biased)
variance, then apply the elementwise affine transform. -/
def layerNormApply {d : ℕ} (p : LayerNormParams d) (x : Fin d → ℝ) :
    Fin d → ℝ :=
  let mu := (∑ i, x i) / d
  let sig := (∑ i, (x i - mu) ^ 2) / d
  fun i => p.gamma i * ((x i - mu) / Real.sqrt (sig + lnEps)) + p.beta i

/-- `nn.ReLU`. -/
def relu (x : ℝ) : ℝ := max x 0

/-- The block's feed-forward network
`nn.Sequential(nn.Linear(d, f), nn.ReLU(), nn.Linear(f, d))`. -/
def ffnApply {d f : ℕ} (w1 : LinearParams f d) (w2 : LinearParams d f)
    (x : Fin d → ℝ) : Fin d → ℝ :=
  linearApply w2 (fun j => relu (linearApply w1 x j))

/-- Parameters of one `TransformerEncoderBlock` (for batch `b`, sequence
length `n`, width `d`, feed-forward width `f`).  `drop1` and `drop2` are the
elementwise multiplier masks of the two `self.dropout` call sites of the
block's forward pass (Bernoulli-scaled masks in training mode, all ones in
evaluation mode); the randomness of dropout is externalized into them. -/
structure BlockParams (b n d f : ℕ) where
  head : HeadParams n d
  norm1 : LayerNormParams d
  norm2 : LayerNormParams d
  ffn1 : LinearParams f d
  ffn2 : LinearParams d f
  drop1 : Tens b n d
  drop2 : Tens b n d

/-- `TransformerEncoderBlock.forward(x)`: self-attention with
`query=key=value=x`, first residual + `norm1`, feed-forward, second residual
+ `norm2` (the feed-forward application and the second residual are TODO
stubs in the source; modelled from the spec 4.3), returning
`(output, attention_weights)`. -/
def blockForward {b n d f : ℕ} (otherPE : Bool) (p : BlockParams b n d f)
    (x : Tens b n d) : Tens b n d × AttnW b n :=
  let a := headForward otherPE p.head x x x
  let x1 : Tens b n d := fun B s =>
    layerNormApply p.norm1 (fun c => x B s c + p.drop1 B s c * a.1 B s c)
  let fo : Tens b n d := fun B s => ffnApply p.ffn1 p.ffn2 (x1 B s)
  let out : Tens b n d := fun B s =>
    layerNormApply p.norm2 (fun c => x1 B s c + p.drop2 B s c * fo B s c)
  (out, a.2)

/-- The positional-encoding factor
`div_term[i] = exp((2 i) * (-log(10000) / d_model))`. -/
def divTerm (dModel i : ℕ) : ℝ :=
  Real.exp ((2 * i : ℕ) * (-(Real.log 10000) / dModel))

/-- The `PositionalEncoding` table `pe` of shape `(max_len, d_model)` (before
the reshape): sine at even channels, cosine at odd channels, of
`position * div_term`.  The entries depend only on `(pos, ch, d_model)`, so
the table is embedded as a function of the position and channel index;
`register_buffer` makes it fixed and non-trainable. -/
def peTable (dModel pos ch : ℕ) : ℝ :=
  if ch % 2 = 0 then Real.sin (pos * divTerm dModel (ch / 2))
  else Real.cos (pos * divTerm dModel (ch / 2))

/-- `PositionalEncoding.forward(x)` as the source computes it on the
`(batch, seq_len, d_model)` inputs that `Transformer.forward` passes it:
after `pe = pe.unsqueeze(0).transpose(0, 1)` the buffer has shape
`(max_len, 1, d_model)`, so `self.pe[:x.size(0), :]` selects the first
`batch` rows (valid for `batch ≤ max_len`) and
`.repeat(1, x.shape[1], 1)` copies row `B` across all sequence positions:
entry `(B, s, c)` of the result is `x[B, s, c] + pe[B, c]` — the table row
is selected by the *batch* index. -/
def peForward {b n d : ℕ} (x : Tens b n d) : Tens b n d :=
  fun B s c => x B s c + peTable d (B : ℕ) c

/-- Written from the claim's words (C3): add the first `seq_len` rows of the
table to `x`, broadcast identically over the batch axis — batch element `B`
receives table row `s` at sequence position `s`. -/
def peForwardSpec {b n d : ℕ} (x : Tens b n d) : Tens b n d :=
  fun B s c => x B s c + peTable d (s : ℕ) c

/-- Parameters of the `Transformer` model with sequence length `n + 1`:
`usePE` is `positional_encoding is not None`; the blocks are constructed with
`other_positional_encodings_present = (False if positional_encoding is None
else True) = usePE`.  `fcOut` is the final `nn.Linear(d_model, 1)`. -/
structure TransformerParams (b n d f ins : ℕ) where
  usePE : Bool
  embedding : LinearParams d ins
  blocks : List (BlockParams b (n + 1) d f)
  fcOut : LinearParams 1 d

/-- The loop of `Transformer.forward`: apply each encoder block in order,
collecting each block's attention-weight matrix. -/
def encodeBlocks {b n d f : ℕ} (otherPE : Bool) :
    List (BlockParams b n d f) → Tens b n d → Tens b n d × List (AttnW b n)
  | [], x => (x, [])
  | p :: rest, x =>
    let r := blockForward otherPE p x
    let r2 := encodeBlocks otherPE rest r.1
    (r2.1, r.2 :: r2.2)

/-- The input embedding `self.embedding` applied position-wise. -/
def embedAll {b n d ins : ℕ} (p : LinearParams d ins) (x : Tens b n ins) :
    Tens b n d :=
  fun B s => linearApply p (x B s)

/-- `Transformer.forward(x)` for `x` of shape `(batch, seq_len, input_size)`
with `seq_len = n + 1`: linear embedding, then
`x = self.pos_encoder(x) if self.positional_encoding is not None else x`
(`peF` is the configured positional-encoding collaborator's forward, the
repo's being `peForward`), then the encoder blocks, then `self.fc_out`
applied to the last sequence position `x[:, -1]`, returning
`(output, all_attention_weights)`. -/
def transformerForward {b n d f ins : ℕ} (p : TransformerParams b n d f ins)
    (peF : Tens b (n + 1) d → Tens b (n + 1) d) (x : Tens b (n + 1) ins) :
    (Fin b → Fin 1 → ℝ) × List (AttnW b (n + 1)) :=
  let e : Tens b (n + 1) d := embedAll p.embedding x
  let e2 := if p.usePE then peF e else e
  let r := encodeBlocks p.usePE p.blocks e2
  (fun B => linearApply p.fcOut (r.1 B (Fin.last n)), r.2)

/-- A weight tensor is row-stochastic: every row over the last axis sums
to 1. -/
def rowStochastic {b n : ℕ} (w : AttnW b n) : Prop :=
  ∀ B i, ∑ j, w B i j = 1

/-- A predicate holds of every member of a list. -/
def listForall {α : Type _} (P : α → Prop) : List α → Prop
  | [] => True
  | a :: l => P a ∧ listForall P l

/-- Weights produced row-wise by softmax are row-stochastic. -/
theorem rowStochastic_of_softmax {b n : ℕ} (g : AttnW b n) :
    rowStochastic (fun B i => softmax (g B i)) :=
  fun _ i => softmax_sum_eq_one _ i

/-- The weight matrix of the attention unit is row-stochastic for every
configuration and input. -/
theorem sdpa_row_stochastic {b n dk dv : ℕ} (dkParam : ℕ) (other : Bool)
    (rel : Fin n → Fin n → ℝ) (q k : Tens b n dk) (v : Tens b n dv) :
    rowStochastic (sdpaForward dkParam other rel q k v).2 :=
  rowStochastic_of_softmax _

/-- Every weight matrix collected by the encoder loop is row-stochastic. -/
theorem encodeBlocks_row_stochastic {b n d f : ℕ} (o : Bool)
    (bs : List (BlockParams b n d f)) (x : Tens b n d) :
    listForall rowStochastic (encodeBlocks o bs x).2 := by
  induction bs generalizing x with
  | nil => exact trivial
  | cons p rest ih =>
    exact ⟨rowStochastic_of_softmax _, ih _⟩

/-- C4: for every query/key/value input and either positional-bias
configuration, each row over the last axis of the attention-weight matrix
returned by the attention unit sums to 1; consequently every matrix in the
per-block weight list returned by `Transformer.forward` is row-stochastic. -/
theorem C4_attention_weights_row_stochastic :
    (∀ (b n dk dv dkParam : ℕ) (other : Bool) (rel : Fin n → Fin n → ℝ)
        (q k : Tens b n dk) (v : Tens b n dv),
      rowStochastic (sdpaForward dkParam other rel q k v).2)
    ∧ ∀ (b n d f ins : ℕ) (p : TransformerParams b n d f ins)
        (peF : Tens b (n + 1) d → Tens b (n + 1) d) (x : Tens b (n + 1) ins),
        listForall rowStochastic (transformerForward p peF x).2 := by
  refine ⟨fun b n dk dv dkParam other rel q k v =>
    sdpa_row_stochastic dkParam other rel q k v, ?_⟩
  intro b n d f ins p peF x
  exact encodeBlocks_row_stochastic _ _ _

/-- Replace the relative positional bias of one block's attention unit,
keeping every other parameter. -/
def setRel {b n d f : ℕ} (r : Fin n → Fin n → ℝ) (bp : BlockParams b n d f) :
    BlockParams b n d f :=
  ⟨⟨bp.head.query_layer, bp.head.key_layer, bp.head.value_layer,
    bp.head.fc_out, r⟩,
   bp.norm1, bp.norm2, bp.ffn1, bp.ffn2, bp.drop1, bp.drop2⟩

/-- Replace every block's relative positional bias (block `k` receives
`rs k`), keeping every other parameter. -/
def setRels {b n d f : ℕ} (rs : ℕ → Fin n → Fin n → ℝ) :
    ℕ → List (BlockParams b n d f) → List (BlockParams b n d f)
  | _, [] => []
  | k, bp :: rest => setRel (rs k) bp :: setRels rs (k + 1) rest

/-- The relative bias is added in a block's attention unit iff the block was
constructed with `other_positional_encodings_present = false`, i.e. iff the
model was built with `positional_encoding = None`. -/
def relBiasActive {b n d f ins : ℕ} (p : TransformerParams b n d f ins) :
    Bool :=
  !p.usePE

/-- The absolute positional encoding is applied in `Transformer.forward` iff
`positional_encoding is not None`. -/
def absPEActive {b n d f ins : ℕ} (p : TransformerParams b n d f ins) :
    Bool :=
  p.usePE

/-- With the flag set (an absolute encoding is configured), a block's output
does not depend on its relative bias. -/
theorem blockForward_true_setRel {b n d f : ℕ} (r : Fin n → Fin n → ℝ)
    (bp : BlockParams b n d f) (x : Tens b n d) :
    blockForward true (setRel r bp) x = blockForward true bp x := rfl

/-- With the flag set, the encoder loop does not depend on any block's
relative bias. -/
theorem encodeBlocks_true_setRels {b n d f : ℕ}
    (rs : ℕ → Fin n → Fin n → ℝ) (k : ℕ) (bs : List (BlockParams b n d f))
    (x : Tens b n d) :
    encodeBlocks true (setRels rs k bs) x = encodeBlocks true bs x := by
  induction bs generalizing k x with
  | nil => rfl
  | cons bp rest ih =>
    simp only [setRels, encodeBlocks, blockForward_true_setRel]
    rw [ih]

/-- C2: in every Transformer constructed with an absolute
positional-encoding constructor (`usePE = true`), no block's attention unit
adds its relative bias — the whole forward pass is independent of every
block's bias tensor; with `positional_encoding = None`
(`other_positional_encodings_present = false`), every block's unit does add
its own bias to the score matrix before softmax; and the two positional
strategies are never both active in any configuration. -/
theorem C2_positional_strategies_mutually_exclusive :
    (∀ (b n d f ins : ℕ) (p : TransformerParams b n d f ins)
        (peF : Tens b (n + 1) d → Tens b (n + 1) d) (x : Tens b (n + 1) ins)
        (rs : ℕ → Fin (n + 1) → Fin (n + 1) → ℝ),
      transformerForward ⟨true, p.embedding, setRels rs 0 p.blocks, p.fcOut⟩
          peF x
        = transformerForward ⟨true, p.embedding, p.blocks, p.fcOut⟩ peF x)
    ∧ (∀ (b n d f : ℕ) (bp : BlockParams b n d f) (x : Tens b n d),
      (blockForward false bp x).2
        = fun B i => softmax (fun j =>
            headScores bp.head x x B i j + bp.head.rel_layer i j))
    ∧ ∀ (b n d f ins : ℕ) (p : TransformerParams b n d f ins),
        (relBiasActive p && absPEActive p) = false := by
  refine ⟨?_, ?_, ?_⟩
  · intro b n d f ins p peF x rs
    simp only [transformerForward]
    rw [encodeBlocks_true_setRels]
  · intro b n d f bp x
    rfl
  · intro b n d f ins p
    cases hp : p.usePE <;> simp [relBiasActive, absPEActive, hp]

/-- The state after applying a list of encoder blocks in order. -/
def finalState {b n d f : ℕ} (otherPE : Bool)
    (bs : List (BlockParams b n d f)) (x : Tens b n d) : Tens b n d :=
  bs.foldl (fun a bp => (blockForward otherPE bp a).1) x

/-- Override the `usePE` configuration, keeping all parameters. -/
def setUsePE {b n d f ins : ℕ} (u : Bool)
    (p : TransformerParams b n d f ins) : TransformerParams b n d f ins :=
  ⟨u, p.embedding, p.blocks, p.fcOut⟩

/-- The encoder loop's final state is the left fold of the blocks. -/
theorem encodeBlocks_fst {b n d f : ℕ} (o : Bool)
    (bs : List (BlockParams b n d f)) (x : Tens b n d) :
    (encodeBlocks o bs x).1 = finalState o bs x := by
  induction bs generalizing x with
  | nil => rfl
  | cons bp rest ih =>
    simp only [encodeBlocks, finalState, List.foldl_cons]
    exact ih _

/-- The encoder loop collects one weight matrix per block. -/
theorem encodeBlocks_length {b n d f : ℕ} (o : Bool)
    (bs : List (BlockParams b n d f)) (x : Tens b n d) :
    (encodeBlocks o bs x).2.length = bs.length := by
  induction bs generalizing x with
  | nil => rfl
  | cons bp rest ih =>
    simp only [encodeBlocks, List.length_cons]
    rw [ih]

/-- Weight collection is compositional: the weights of `bs1 ++ bs2` are the
weights of `bs1` followed by the weights of `bs2` started from the state
`bs1` left behind — blocks are applied sequentially and the list is in block
order. -/
theorem encodeBlocks_append {b n d f : ℕ} (u : Bool)
    (bs1 bs2 : List (BlockParams b n d f)) (y : Tens b n d) :
    (encodeBlocks u (bs1 ++ bs2) y).2
      = (encodeBlocks u bs1 y).2
        ++ (encodeBlocks u bs2 (finalState u bs1 y)).2 := by
  induction bs1 generalizing y with
  | nil => rfl
  | cons bp rest ih =>
    simp only [List.cons_append, encodeBlocks, List.append_eq]
    rw [ih]
    simp only [finalState, List.foldl_cons]

/-- C6: `Transformer.forward` embeds the input linearly, applies the
positional-encoding collaborator exactly when one was configured, applies
the blocks sequentially collecting each block's weight matrix in block
order, and returns the final linear map applied only to the last sequence
position's hidden state (one scalar per batch element) together with a list
of exactly `num_layers` weight matrices. -/
theorem C6_transformer_forward_structure :
    ∀ (b n d f ins : ℕ) (p : TransformerParams b n d f ins)
      (peF : Tens b (n + 1) d → Tens b (n + 1) d) (x : Tens b (n + 1) ins),
      ((transformerForward p peF x).2.length = p.blocks.length)
      ∧ ((transformerForward p peF x).1 = fun B =>
           linearApply p.fcOut
             (finalState p.usePE p.blocks
               (if p.usePE then peF (embedAll p.embedding x)
                else embedAll p.embedding x) B (Fin.last n)))
      ∧ (∀ g, transformerForward (setUsePE false p) peF x
            = transformerForward (setUsePE false p) g x)
      ∧ ∀ (bs1 bs2 : List (BlockParams b (n + 1) d f)) (u : Bool)
          (y : Tens b (n + 1) d),
          (encodeBlocks u (bs1 ++ bs2) y).2
            = (encodeBlocks u bs1 y).2
              ++ (encodeBlocks u bs2 (finalState u bs1 y)).2 := by
  intro b n d f ins p peF x
  refine ⟨encodeBlocks_length _ _ _, ?_, fun g => rfl,
    fun bs1 bs2 u y => encodeBlocks_append u bs1 bs2 y⟩
  simp only [transformerForward, encodeBlocks_fst]

/-- C7: `TransformerEncoderBlock.forward(x)` calls the attention head with
`query=key=value=x`, computes `x1 = LayerNorm1(x + Dropout(attention))`,
passes `x1` through the two-layer feed-forward network with a ReLU between
the layers, returns `LayerNorm2(x1 + Dropout(ffn))` together with the
attention weights, and applies dropout (the mask multipliers) only on the
two residual branches before each addition. -/
theorem C7_encoder_block_structure :
    ∀ (b n d f : ℕ) (otherPE : Bool) (p : BlockParams b n d f)
      (x : Tens b n d),
      blockForward otherPE p x
        = (let ar := headForward otherPE p.head x x x
           let x1 : Tens b n d := fun B s =>
             layerNormApply p.norm1
               (fun c => x B s c + p.drop1 B s c * ar.1 B s c)
           ((fun B s => layerNormApply p.norm2
              (fun c => x1 B s c
                + p.drop2 B s c * ffnApply p.ffn1 p.ffn2 (x1 B s) c)),
            ar.2)) := by
  intro b n d f otherPE p x
  rfl

/-- Apply a permutation of the sequence axis to a batched tensor. -/
def permT {b n d : ℕ} (σ : Equiv.Perm (Fin n)) (x : Tens b n d) :
    Tens b n d :=
  fun B i => x B (σ i)

/-- Softmax commutes with reindexing the row by a permutation. -/
theorem softmax_comp_perm {n : ℕ} (s : Fin n → ℝ) (σ : Equiv.Perm (Fin n))
    (j : Fin n) : softmax (fun t => s (σ t)) j = softmax s (σ j) := by
  unfold softmax
  rw [Equiv.sum_comp σ (fun t => Real.exp (s t))]

/-- With the bias inactive, the attention weights at permuted inputs are the
original weights with both axes permuted. -/
theorem sdpa_perm_weights {b n dk dv : ℕ} (dkParam : ℕ)
    (rel : Fin n → Fin n → ℝ) (q k : Tens b n dk) (v : Tens b n dv)
    (σ : Equiv.Perm (Fin n)) (B : Fin b) (i j : Fin n) :
    (sdpaForward dkParam true rel (permT σ q) (permT σ k) (permT σ v)).2 B i j
      = (sdpaForward dkParam true rel q k v).2 B (σ i) (σ j) := by
  show softmax (rawScores dkParam (permT σ q) (permT σ k) B i) j
    = softmax (rawScores dkParam q k B (σ i)) (σ j)
  have h : rawScores dkParam (permT σ q) (permT σ k) B i
      = fun j => rawScores dkParam q k B (σ i) (σ j) := rfl
  rw [h]
  exact softmax_comp_perm _ σ j

/-- With the bias inactive, the attention output at permuted inputs is the
original output with the sequence axis permuted. -/
theorem sdpa_perm_output {b n dk dv : ℕ} (dkParam : ℕ)
    (rel : Fin n → Fin n → ℝ) (q k : Tens b n dk) (v : Tens b n dv)
    (σ : Equiv.Perm (Fin n)) :
    (sdpaForward dkParam true rel (permT σ q) (permT σ k) (permT σ v)).1
      = permT σ (sdpaForward dkParam true rel q k v).1 := by
  funext B i t
  show (∑ j, softmax (rawScores dkParam (permT σ q) (permT σ k) B i) j
        * v B (σ j) t)
    = ∑ j, softmax (rawScores dkParam q k B (σ i)) j * v B j t
  have h1 : ∀ j, softmax (rawScores dkParam (permT σ q) (permT σ k) B i) j
      = softmax (rawScores dkParam q k B (σ i)) (σ j) := by
    intro j
    have h : rawScores dkParam (permT σ q) (permT σ k) B i
        = fun j => rawScores dkParam q k B (σ i) (σ j) := rfl
    rw [h]
    exact softmax_comp_perm _ σ j
  rw [Finset.sum_congr rfl (fun j _ => by rw [h1 j])]
  exact Equiv.sum_comp σ
    (fun j => softmax (rawScores dkParam q k B (σ i)) j * v B j t)

/-- The all-zero query/key tensor of shape `(1, 2, 1)`. -/
def c8zero : Tens 1 2 1 := fun _ _ _ => 0

/-- A value tensor of shape `(1, 2, 1)` distinguishing the two positions. -/
def c8v : Tens 1 2 1 := fun _ j _ => if j = 0 then 1 else 0

/-- A relative positional bias distinguishing position `(0, 0)`. -/
def c8rel : Fin 2 → Fin 2 → ℝ := fun i j => if i = 0 ∧ j = 0 then 1 else 0

/-- C8: with no relative positional bias active (and the source's forward
takes no mask), the attention unit is permutation-equivariant — permuting
the sequence axis of query, key and value simultaneously permutes the output
rows and both axes of the weight matrix identically; with the bias active
this fails for some input and some permutation (the two sides differ: the
left is strictly smaller at the exhibited entry). -/
theorem C8_permutation_equivariance :
    (∀ (b n dk dv dkParam : ℕ) (rel : Fin n → Fin n → ℝ)
        (q k : Tens b n dk) (v : Tens b n dv) (σ : Equiv.Perm (Fin n)),
      ((sdpaForward dkParam true rel (permT σ q) (permT σ k) (permT σ v)).1
          = permT σ (sdpaForward dkParam true rel q k v).1)
      ∧ ∀ B i j,
          (sdpaForward dkParam true rel (permT σ q) (permT σ k)
              (permT σ v)).2 B i j
            = (sdpaForward dkParam true rel q k v).2 B (σ i) (σ j))
    ∧ ∃ (q k v : Tens 1 2 1) (rel : Fin 2 → Fin 2 → ℝ)
        (σ : Equiv.Perm (Fin 2)),
        (sdpaForward 1 false rel (permT σ q) (permT σ k) (permT σ v)).1 0 0 0
          < permT σ (sdpaForward 1 false rel q k v).1 0 0 0 := by
  constructor
  · intro b n dk dv dkParam rel q k v σ
    exact ⟨sdpa_perm_output dkParam rel q k v σ,
      fun B i j => sdpa_perm_weights dkParam rel q k v σ B i j⟩
  · refine ⟨c8zero, c8zero, c8v, c8rel, Equiv.swap 0 1, ?_⟩
    have hz : permT (Equiv.swap (0 : Fin 2) 1) c8zero = c8zero := rfl
    have hL : (sdpaForward 1 false c8rel (permT (Equiv.swap (0 : Fin 2) 1)
          c8zero) (permT (Equiv.swap (0 : Fin 2) 1) c8zero)
          (permT (Equiv.swap (0 : Fin 2) 1) c8v)).1 0 0 0
        = 1 / (Real.exp 1 + 1) := by
      show (∑ j : Fin 2, softmax (fun j =>
          rawScores 1 c8zero c8zero 0 0 j + c8rel 0 j) j
          * c8v 0 (Equiv.swap (0 : Fin 2) 1 j) 0) = 1 / (Real.exp 1 + 1)
      simp [softmax, rawScores, c8zero, c8v, c8rel, Fin.sum_univ_two,
        Real.exp_zero, Equiv.swap_apply_left, Equiv.swap_apply_right]
    have hR : permT (Equiv.swap (0 : Fin 2) 1)
          (sdpaForward 1 false c8rel c8zero c8zero c8v).1 0 0 0
        = 1 / 2 := by
      show (∑ j : Fin 2, softmax (fun j =>
          rawScores 1 c8zero c8zero 0 (Equiv.swap (0 : Fin 2) 1 0) j
          + c8rel (Equiv.swap (0 : Fin 2) 1 0) j) j * c8v 0 j 0) = 1 / 2
      simp [softmax, rawScores, c8zero, c8v, c8rel, Fin.sum_univ_two,
        Real.exp_zero, Equiv.swap_apply_left]
    rw [hL, hR]
    have he : (2 : ℝ) < Real.exp 1 + 1 := by
      have h := Real.add_one_le_exp (1 : ℝ)
      linarith
    have h2 : (0 : ℝ) < 2 := by norm_num
    exact one_div_lt_one_div_of_lt h2 he

/-- The all-zero input tensor of shape `(batch, seq_len, d_model) = (2, 3, 2)`. -/
def c3x : Tens 2 3 2 := fun _ _ _ => 0

/-- C3 (code evaluation at the failing input): on the all-zero
`(2, 3, 2)` input, the source's `PositionalEncoding.forward` gives batch
element 1, sequence position 0, channel 0 the value `sin 1` — table row 1,
selected by the *batch* index — whereas the claimed behaviour (row `p`
added at sequence position `p`, identically for every batch element) gives
table row 0, i.e. `sin 0 = 0`; the two differ since `sin 1 > 0`. -/
theorem C3_pe_row_selected_by_batch_index :
    peForward c3x 1 0 0 = Real.sin 1
    ∧ peForwardSpec c3x 1 0 0 = 0
    ∧ 0 < Real.sin 1 := by
  refine ⟨?_, ?_, ?_⟩
  · show (0 : ℝ) + peTable 2 ((1 : Fin 2) : ℕ) ((0 : Fin 2) : ℕ) = Real.sin 1
    simp [peTable, divTerm, Real.exp_zero]
  · show (0 : ℝ) + peTable 2 ((0 : Fin 3) : ℕ) ((0 : Fin 2) : ℕ) = 0
    simp [peTable, divTerm, Real.sin_zero]
  · have hpi : (1 : ℝ) < Real.pi := by
      have h3 := Real.pi_gt_three
      linarith
    exact Real.sin_pos_of_pos_of_lt_pi (by norm_num) hpi

/-- Written from the spec's words (claim C5): the masked attention-unit
contract — identical to the source's forward, except that where the
optional additive mask flags a position, a large negative value (−10⁹) is
added to the score before softmax, so that the post-softmax weight there is
approximately zero. -/
def sdpaMaskedSpec {b n dk dv : ℕ} (dkParam : ℕ) (otherPE : Bool)
    (rel : Fin n → Fin n → ℝ) (mask : Fin b → Fin n → Fin n → Bool)
    (q k : Tens b n dk) (v : Tens b n dv) : Tens b n dv × AttnW b n :=
  let scores := rawScores dkParam q k
  let scores2 : AttnW b n :=
    if otherPE then scores else fun B i j => scores B i j + rel i j
  let scores3 : AttnW b n := fun B i j =>
    scores2 B i j + (if mask B i j then -(1000000000 : ℝ) else 0)
  let w : AttnW b n := fun B i => softmax (scores3 B i)
  (fun B i t => ∑ j, w B i j * v B j t, w)

/-- The all-zero query/key/value tensor of shape `(1, 2, 1)` used for C5. -/
def c5zero : Tens 1 2 1 := fun _ _ _ => 0

/-- A mask flagging only the score position `(0, 0)`. -/
def c5mask : Fin 1 → Fin 2 → Fin 2 → Bool := fun _ i j => i == 0 && j == 0

/-- C5 (counterexample): `ScaledDotProductAttention.forward` takes no mask
argument and applies no masking: at an all-zero `(1, 2, 1)` input whose
position `(0, 0)` a supplied mask would flag, the source's post-softmax
weight there is `1/2`, not approximately 0 — the masked contract written
from the spec's words puts it below `1/100` — so the source does not
implement the claimed masked contract. -/
theorem C5_counterexample_no_masking :
    (sdpaForward 1 true (fun _ _ => 0) c5zero c5zero c5zero).2 0 0 0 = 1 / 2
    ∧ (sdpaMaskedSpec 1 true (fun _ _ => 0) c5mask c5zero c5zero
        c5zero).2 0 0 0 < 1 / 100
    ∧ (sdpaMaskedSpec 1 true (fun _ _ => 0) c5mask c5zero c5zero
        c5zero).2 0 0 0
      < (sdpaForward 1 true (fun _ _ => 0) c5zero c5zero c5zero).2 0 0 0 := by
  have hsrc : (sdpaForward 1 true (fun _ _ => 0) c5zero c5zero
      c5zero).2 0 0 0 = 1 / 2 := by
    show softmax (fun j => rawScores 1 c5zero c5zero 0 0 j) 0 = 1 / 2
    simp [softmax, rawScores, c5zero, Fin.sum_univ_two, Real.exp_zero]
  have hmask : (sdpaMaskedSpec 1 true (fun _ _ => 0) c5mask c5zero c5zero
      c5zero).2 0 0 0
      = Real.exp (-(1000000000 : ℝ))
        / (Real.exp (-(1000000000 : ℝ)) + 1) := by
    show softmax (fun j => rawScores 1 c5zero c5zero 0 0 j
        + (if c5mask 0 0 j then -(1000000000 : ℝ) else 0)) 0
      = Real.exp (-(1000000000 : ℝ)) / (Real.exp (-(1000000000 : ℝ)) + 1)
    simp [softmax, rawScores, c5zero, c5mask, Fin.sum_univ_two,
      Real.exp_zero]
  have hy0 : 0 < Real.exp (-(1000000000 : ℝ)) := Real.exp_pos _
  have hy7 : Real.exp (-(1000000000 : ℝ)) ≤ Real.exp (-7) :=
    Real.exp_le_exp.mpr (by norm_num)
  have h7 : (100 : ℝ) < Real.exp 7 := by
    have h2 : (2 : ℝ) ≤ Real.exp 1 := by
      have h := Real.add_one_le_exp (1 : ℝ)
      linarith
    have hp : (2 : ℝ) ^ 7 ≤ Real.exp 1 ^ 7 :=
      pow_le_pow_left₀ (by norm_num) h2 7
    have hex : Real.exp 7 = Real.exp 1 ^ 7 := by
      rw [← Real.exp_nat_mul]
      norm_num
    rw [hex]
    calc (100 : ℝ) < 2 ^ 7 := by norm_num
      _ ≤ Real.exp 1 ^ 7 := hp
  have hsm : Real.exp (-7 : ℝ) < 1 / 100 := by
    rw [Real.exp_neg, one_div]
    exact inv_strictAnti₀ (by norm_num) h7
  have hbound : Real.exp (-(1000000000 : ℝ))
      / (Real.exp (-(1000000000 : ℝ)) + 1) < 1 / 100 := by
    have hds : Real.exp (-(1000000000 : ℝ))
        / (Real.exp (-(1000000000 : ℝ)) + 1)
        ≤ Real.exp (-(1000000000 : ℝ)) :=
      div_le_self hy0.le (by linarith)
    calc Real.exp (-(1000000000 : ℝ))
        / (Real.exp (-(1000000000 : ℝ)) + 1)
        ≤ Real.exp (-(1000000000 : ℝ)) := hds
      _ ≤ Real.exp (-7) := hy7
      _ < 1 / 100 := hsm
  refine ⟨hsrc, ?_, ?_⟩
  · rw [hmask]
    exact hbound
  · rw [hmask, hsrc]
    calc Real.exp (-(1000000000 : ℝ))
        / (Real.exp (-(1000000000 : ℝ)) + 1) < 1 / 100 := hbound
      _ < 1 / 2 := by norm_num

/-- C5 (amended): the attention unit's forward takes exactly query, key and
value — no mask parameter exists — and applies no masking: for either bias
configuration it coincides with the spec's masked contract evaluated at the
empty mask. -/
theorem C5_amended_forward_has_no_masking {b n dk dv : ℕ} (dkParam : ℕ)
    (other : Bool) (rel : Fin n → Fin n → ℝ) (q k : Tens b n dk)
    (v : Tens b n dv) :
    sdpaForward dkParam other rel q k v
      = sdpaMaskedSpec dkParam other rel (fun _ _ _ => false) q k v := by
  unfold sdpaForward sdpaMaskedSpec
  simp

end

/-- `val` from `TimeSeriesDataset.__init__`: the fixed jump stride. -/
def tsVal : ℕ := 3

/-- `initial_jump` from `TimeSeriesDataset.__init__`. -/
def tsInitialJump : ℚ := 5

/-- Modelled from the spec: the series generation of
`TimeSeriesDataset.__init__` is partly a TODO stub in the source (the first
jump index and the added amounts are ellipses).  Per the spec, a series of
length `seq_len + 1` starts as zeros, the first jump lands at a random
offset `firstJump` drawn from `[0, val)` and adds `initial_jump` plus noise,
and — per the source's implemented loop
`for i in range(first_jump + val, seq_len + 1, val)` — every later index at
stride `val` after the first jump adds
`(0 if i % 2 == 1 else initial_jump)` plus noise (with `val = 3` odd,
consecutive jump indices alternate parity, so increments alternate between
zero and `initial_jump`).  The random draw and the noise are externalized
into `firstJump` and `noise`. -/
def timeSeries (seqLen firstJump : ℕ) (noise : ℕ → ℚ) :
    Fin (seqLen + 1) → ℚ :=
  fun i =>
    if (i : ℕ) = firstJump then tsInitialJump + noise (i : ℕ)
    else if firstJump + tsVal ≤ (i : ℕ)
        ∧ ((i : ℕ) - firstJump) % tsVal = 0 then
      (if (i : ℕ) % 2 = 1 then 0 else tsInitialJump) + noise (i : ℕ)
    else 0

/-- Modelled from the spec: `TimeSeriesDataset.__getitem__` is a TODO stub
in the source; per its docstring it returns the tuple of the time series
and the final jump value — the value at the final index is the regression
target. -/
def tsGetItem (seqLen firstJump : ℕ) (noise : ℕ → ℚ) :
    (Fin (seqLen + 1) → ℚ) × ℚ :=
  (timeSeries seqLen firstJump noise,
   timeSeries seqLen firstJump noise (Fin.last seqLen))

/-- C9: every generated sequence has length `seq_len + 1` (the index type);
it is exactly 0 at every position before the first jump index, which is
drawn from `[0, val)` with `val = 3`; the first jump adds
`initial_jump = 5` plus noise; subsequent jumps occur exactly every `val`
steps after the first jump — at those indices the increment alternates (via
the parity rule of the source, with odd stride 3) between zero and
`initial_jump` plus noise, and everywhere else after the first jump the
value is 0; `__getitem__` returns the series together with the value at the
final index as the regression target. -/
theorem C9_time_series_structure (seqLen firstJump : ℕ) (noise : ℕ → ℚ)
    (h : firstJump < tsVal) :
    (∀ i : Fin (seqLen + 1), (i : ℕ) < firstJump →
      timeSeries seqLen firstJump noise i = 0)
    ∧ (∀ i : Fin (seqLen + 1), (i : ℕ) = firstJump →
      timeSeries seqLen firstJump noise i = tsInitialJump + noise (i : ℕ))
    ∧ (∀ i : Fin (seqLen + 1), firstJump < (i : ℕ) →
      (((i : ℕ) - firstJump) % tsVal = 0 →
        timeSeries seqLen firstJump noise i
          = (if (i : ℕ) % 2 = 1 then 0 else tsInitialJump) + noise (i : ℕ))
      ∧ (((i : ℕ) - firstJump) % tsVal ≠ 0 →
        timeSeries seqLen firstJump noise i = 0))
    ∧ tsGetItem seqLen firstJump noise
        = (timeSeries seqLen firstJump noise,
           timeSeries seqLen firstJump noise (Fin.last seqLen)) := by
  simp only [tsVal] at h
  refine ⟨?_, ?_, ?_, rfl⟩
  · intro i hi
    simp only [timeSeries, tsVal]
    rw [if_neg (by omega), if_neg (by omega)]
  · intro i hi
    simp only [timeSeries]
    rw [if_pos hi]
  · intro i hi
    simp only [tsVal]
    constructor
    · intro hm
      simp only [timeSeries, tsVal]
      rw [if_neg (by omega), if_pos (by omega)]
    · intro hm
      simp only [timeSeries, tsVal]
      rw [if_neg (by omega), if_neg (by omega)]

/-- C9 witness: at `seq_len = 9`, `firstJump = 1 ∈ [0, 3)`, zero noise, the
value at index 0 (before the first jump) is exactly 0. -/
theorem C9_witness :
    (1 : ℕ) < tsVal ∧ timeSeries 9 1 (fun _ => 0) 0 = 0 :=
  ⟨by decide,
   (C9_time_series_structure 9 1 (fun _ => 0) (by decide)).1 0 (by decide)⟩

/-- The registration-relevant kinds of values assigned to attributes of a
torch `nn.Module`. -/
inductive TorchAttr where
  | parameterAttr
  | bufferAttr
  | tensorAttr
  | scalarAttr
deriving DecidableEq

/-- The attributes assigned in `ScaledDotProductAttention.__init__`. -/
inductive SDPAField where
  | dK
  | seqLenF
  | otherFlag
  | relLayer
deriving DecidableEq

/-- From the source: `self.d_k`, `self.seq_len` and
`self.other_positional_encodings_present` are plain scalars, and
`self.rel_layer = torch.randn(1, self.seq_len, self.seq_len,
requires_grad=True)` is a plain tensor — `torch.randn` returns a `Tensor`,
never wrapped in `nn.Parameter` and never passed to `register_buffer`. -/
def sdpaAttrKind : SDPAField → TorchAttr
  | .dK => .scalarAttr
  | .seqLenF => .scalarAttr
  | .otherFlag => .scalarAttr
  | .relLayer => .tensorAttr

/-- torch registration rule: `parameters()` collects exactly the
`nn.Parameter`-valued attributes (this module has no submodules). -/
def registersAsParameter : TorchAttr → Bool
  | .parameterAttr => true
  | _ => false

/-- torch rule: `state_dict()` holds exactly parameters and registered
buffers. -/
def savedInStateDict : TorchAttr → Bool
  | .parameterAttr => true
  | .bufferAttr => true
  | _ => false

/-- The attribute assignments of `ScaledDotProductAttention.__init__`, in
order. -/
def sdpaFields : List SDPAField := [.dK, .seqLenF, .otherFlag, .relLayer]

/-- The unit's `parameters()` collection. -/
def sdpaParameters : List SDPAField :=
  sdpaFields.filter (fun f => registersAsParameter (sdpaAttrKind f))

/-- The unit's `state_dict()` keys. -/
def sdpaStateDict : List SDPAField :=
  sdpaFields.filter (fun f => savedInStateDict (sdpaAttrKind f))

/-- A training step over the unit's attribute store that updates only the
attributes in `parameters()`. -/
def sdpaApplyUpdate {α : Type _} (upd : SDPAField → α → α)
    (st : SDPAField → α) : SDPAField → α :=
  fun f => if f ∈ sdpaParameters then upd f (st f) else st f

/-- A gradient update of one encoder block of the enclosing model: every
registered parameter (the four projection layers, the two layer norms, the
feed-forward layers) may be replaced with an arbitrary new value, but the
block's `rel_layer` is not in `parameters()` (`sdpaParameters = []`), so a
step that updates only `model.parameters()` keeps the old one (the dropout
masks carry no parameters either). -/
def updateBlockParams {b n d f : ℕ} (nw old : BlockParams b n d f) :
    BlockParams b n d f :=
  ⟨⟨nw.head.query_layer, nw.head.key_layer, nw.head.value_layer,
    nw.head.fc_out, old.head.rel_layer⟩,
   nw.norm1, nw.norm2, nw.ffn1, nw.ffn2, old.drop1, old.drop2⟩

/-- Apply a per-block gradient update to every block. -/
def updateBlocksList {b n d f : ℕ} (nws : ℕ → BlockParams b n d f) :
    ℕ → List (BlockParams b n d f) → List (BlockParams b n d f)
  | _, [] => []
  | k, o :: rest => updateBlockParams (nws k) o :: updateBlocksList nws (k + 1) rest

/-- A training step of the whole model that updates only
`model.parameters()`: the embedding, every block's registered parameters and
the output head get arbitrary new values; no block's `rel_layer` can be
touched. -/
def applyParamStep {b n d f ins : ℕ} (nwEmb : LinearParams d ins)
    (nws : ℕ → BlockParams b (n + 1) d f) (nwOut : LinearParams 1 d)
    (p : TransformerParams b n d f ins) : TransformerParams b n d f ins :=
  ⟨p.usePE, nwEmb, updateBlocksList nws 0 p.blocks, nwOut⟩

/-- A parameter step preserves every block's relative bias. -/
theorem updateBlocksList_preserves_rels {b n d f : ℕ}
    (nws : ℕ → BlockParams b n d f) (k : ℕ)
    (olds : List (BlockParams b n d f)) :
    (updateBlocksList nws k olds).map (fun bp => bp.head.rel_layer)
      = olds.map (fun bp => bp.head.rel_layer) := by
  induction olds generalizing k with
  | nil => rfl
  | cons o rest ih =>
    simp only [updateBlocksList, List.map_cons]
    rw [ih]
    rfl

/-- C10: `rel_layer` is created by `torch.randn(..., requires_grad=True)`
as a plain tensor and never registered, so the attention unit contributes no
entry to `parameters()` and none to the saved state; consequently any
training step that updates only `model.parameters()` leaves the unit's
`rel_layer` store untouched and leaves every block's relative bias of the
enclosing model at its initial value. -/
theorem C10_rel_layer_not_registered :
    sdpaParameters = []
    ∧ sdpaStateDict = []
    ∧ sdpaParameters.contains SDPAField.relLayer = false
    ∧ sdpaStateDict.contains SDPAField.relLayer = false
    ∧ (∀ (α : Type) (upd : SDPAField → α → α) (st : SDPAField → α),
        sdpaApplyUpdate upd st SDPAField.relLayer = st SDPAField.relLayer)
    ∧ ∀ (b n d f ins : ℕ) (nwEmb : LinearParams d ins)
        (nws : ℕ → BlockParams b (n + 1) d f) (nwOut : LinearParams 1 d)
        (p : TransformerParams b n d f ins),
        (applyParamStep nwEmb nws nwOut p).blocks.map
            (fun bp => bp.head.rel_layer)
          = p.blocks.map (fun bp => bp.head.rel_layer) := by
  refine ⟨rfl, rfl, rfl, rfl, ?_, ?_⟩
  · intro α upd st
    simp [sdpaApplyUpdate, sdpaParameters, sdpaFields, sdpaAttrKind,
      registersAsParameter]
  · intro b n d f ins nwEmb nws nwOut p
    exact updateBlocksList_preserves_rels nws 0 p.blocks





